import Mathlib

/-!
Verification of the void encrypted-vault core: a shallow embedding of the
virtual filesystem (`src/void/src/filesystem.rs`), path algebra
(`src/void/src/path.rs`), key derivation (`src/void/src/crypto.rs`) and the
store's chunk-file naming (`src/src/lib/store.rs`), together with theorems
settling the frozen specification claims.

Modelling conventions:
- Rust `u64` ids are `Nat` (no arithmetic here ever overflows 64 bits on the
  inputs the code itself can produce, and the claims are about identity and
  ordering of ids, not wrap-around).
- The `graph: HashMap<String, Vec<u64>>` is modelled as an association list
  `List (Nat × List Nat)` with unique keys; the String key is a serde
  artifact (every key the code writes is the decimal form of a `u64`),
  and HashMap iteration order, which Rust leaves unspecified, is fixed to
  the list order.  All theorems below depend only on order-independent
  consequences, or state the dependence explicitly.
- Byte arrays are `List Nat` with entries below 256.
- Functions taking `&mut self` in Rust are modelled as returning a pair of
  the `Result` and the post-state.
-/

namespace Void

/-- Error enumeration from `src/void/src/store.rs` (the variants the embedded
operations can produce). -/
inductive Error where
  | CannotParseError
  | CannotCreateDirectoryError
  | FileDoesNotExistError
  | FolderDoesNotExistError
  | FileAlreadyExistsError
  | InternalStructureError
  | NoSuchMetadataKey
  | CannotEncryptFileError
  | CannotDecryptFileError
  deriving DecidableEq, Repr

/-- Chunk descriptor `Data` from `filesystem.rs`: id plus per-chunk key
material (`key: [u8; 32]`, `iv: [u8; 16]`, `salt: [u8; 16]`). -/
structure Data where
  id : Nat
  key : List Nat
  iv : List Nat
  salt : List Nat
  deriving DecidableEq, Repr

/-- `Node` from `filesystem.rs`.  `metadata` is a `HashMap<String, String>`
modelled as an association list. -/
structure Node where
  id : Nat
  name : String
  size : Nat
  is_file : Bool
  metadata : List (String × String)
  data : List Nat
  tags : List String
  deriving DecidableEq, Repr

/-- The parent-to-children map `graph: HashMap<String, Vec<u64>>`. -/
abbrev Graph := List (Nat × List Nat)

/-- `Filesystem` from `filesystem.rs`. -/
structure Filesystem where
  data : List Data
  nodes : List Node
  graph : Graph
  deriving DecidableEq, Repr

/-- The detached `File` view returned by `Filesystem::get`. -/
structure File where
  id : Nat
  name : String
  size : Nat
  is_file : Bool
  metadata : List (String × String)
  data : List Data
  tags : List String
  deriving DecidableEq, Repr

/-- `HashMap::get` on the graph: the value stored at key `k`. -/
def hmGet (g : Graph) (k : Nat) : Option (List Nat) :=
  (g.find? (fun e => e.1 == k)).map (fun e => e.2)

/-- `HashMap::insert` on the graph: replace the value at an existing key,
or add a fresh entry. -/
def hmInsert (g : Graph) (k : Nat) (v : List Nat) : Graph :=
  if g.any (fun e => e.1 == k) then
    g.map (fun e => if e.1 == k then (k, v) else e)
  else
    g ++ [(k, v)]

/-- All children mentioned anywhere in the graph
(`graph.values().flatten()`). -/
def hmVals (g : Graph) : List Nat :=
  g.flatMap (fun e => e.2)

/-- `Filesystem::new()`. -/
def Filesystem.new : Filesystem := ⟨[], [], []⟩

/-- `Filesystem::get` (filesystem.rs lines 234-266).  Root is synthesized;
otherwise the node is looked up in the node table and its chunk descriptors
are collected by filtering the global chunk table in table order. -/
def Filesystem.get (fs : Filesystem) (id : Nat) : Except Error File :=
  if id = 0 then
    .ok ⟨0, "/", 0, false, [], [], []⟩
  else
    match fs.nodes.find? (fun n => n.id == id) with
    | none => .error .FileDoesNotExistError
    | some node =>
        .ok ⟨node.id, node.name, node.size, node.is_file, node.metadata,
             fs.data.filter (fun d => node.data.contains d.id), node.tags⟩

/-- `Filesystem::ls` (filesystem.rs lines 293-303): direct children of `id`
resolved through `get`, missing ids silently dropped. -/
def Filesystem.ls (fs : Filesystem) (id : Nat) : Except Error (List File) :=
  .ok (((hmGet fs.graph id).getD []).filterMap (fun cid => (fs.get cid).toOption))

/-- `Filesystem::mv` (filesystem.rs lines 311-345), verbatim: after detaching
`id` from its old parent the code re-reads the child list of the OLD parent
(`self.graph.get(&old_parent)`) and installs `id :: that list` as the child
list of the new parent. -/
def Filesystem.mv (fs : Filesystem) (id parent : Nat) :
    Except Error Unit × Filesystem :=
  match fs.nodes.find? (fun n => n.id == id) with
  | none => (.error .FileDoesNotExistError, fs)
  | some node =>
    match fs.nodes.find? (fun n => n.id == parent) with
    | none => (.error .FolderDoesNotExistError, fs)
    | some new_parent =>
      match (fs.graph.find? (fun e => e.2.contains id)).map (fun e => e.1) with
      | none => (.error .InternalStructureError, fs)
      | some old_parent =>
        match hmGet fs.graph old_parent with
        | none => (.error .InternalStructureError, fs)
        | some oc =>
          let old_children := oc.filter (fun cid => cid != node.id)
          let g1 := hmInsert fs.graph old_parent old_children
          match hmGet g1 old_parent with
          | none => (.error .InternalStructureError, { fs with graph := g1 })
          | some new_children =>
            (.ok (), { fs with graph := hmInsert g1 new_parent.id (id :: new_children) })

/-- One pass of the `while` loop in `Filesystem::clean` (filesystem.rs lines
386-400): drop every entry whose key is neither 0 nor referenced as a child
in the (pre-pass) graph. -/
def cleanPass (g : Graph) : Graph :=
  let vals := hmVals g
  g.filter (fun e => e.1 == 0 || vals.contains e.1)

/-- The `while self.graph.len() != size` loop: repeat `cleanPass` until the
length stops changing, with explicit fuel. -/
def cleanLoop : Nat → Graph → Graph
  | 0, g => g
  | fuel + 1, g =>
    let g' := cleanPass g
    if g'.length = g.length then g' else cleanLoop fuel g'

/-- The graph part of `Filesystem::clean`: `g.length + 1` rounds of fuel are
enough, because each non-final pass strictly shrinks the graph. -/
def cleanGraph (g : Graph) : Graph := cleanLoop (g.length + 1) g

/-- `Filesystem::clean` (filesystem.rs lines 384-422): prune unreachable
graph entries, drop nodes not referenced as children, then split the chunk
table into kept and returned (removed) descriptors. -/
def Filesystem.clean (fs : Filesystem) : List Data × Filesystem :=
  let g := cleanGraph fs.graph
  let keep := hmVals g
  let nodes := fs.nodes.filter (fun n => keep.contains n.id)
  let data_keep := nodes.flatMap (fun n => n.data)
  let removed := fs.data.filter (fun d => !data_keep.contains d.id)
  let kept := fs.data.filter (fun d => data_keep.contains d.id)
  (removed, ⟨kept, nodes, g⟩)

/-- `Filesystem::rm` (filesystem.rs lines 356-381): `rm(0)` wipes everything
and returns the whole chunk table; otherwise detach `id` from its parent and
run `clean`. -/
def Filesystem.rm (fs : Filesystem) (id : Nat) :
    Except Error (List Data) × Filesystem :=
  if id = 0 then
    (.ok fs.data, ⟨[], [], []⟩)
  else
    match (fs.graph.find? (fun e => e.2.contains id)).map (fun e => e.1) with
    | none => (.error .InternalStructureError, fs)
    | some parent =>
      let children := ((hmGet fs.graph parent).getD []).filter (fun cid => cid != id)
      let fs1 : Filesystem := { fs with graph := hmInsert fs.graph parent children }
      let r := fs1.clean
      (.ok r.1, r.2)

section ClaimC8

/-- Claim C8: for every filesystem state, `rm(0)` succeeds, returns the
entire chunk table as it was before the call, and leaves the node table, the
chunk table and the graph all empty, so a subsequent `ls(0)` returns the
empty list. -/
theorem C8_rm_root_clears_everything (fs : Filesystem) :
    (fs.rm 0).1 = .ok fs.data ∧
    (fs.rm 0).2.nodes = [] ∧
    (fs.rm 0).2.data = [] ∧
    (fs.rm 0).2.graph = [] ∧
    (fs.rm 0).2.ls 0 = .ok [] := by
  refine ⟨rfl, rfl, rfl, rfl, rfl⟩

end ClaimC8

section ClaimC1

/-- A minimal node record used to build concrete filesystem states. -/
def mkNode (id : Nat) (name : String) : Node :=
  ⟨id, name, 0, false, [], [], []⟩

/-- Concrete state for claim C1: nodes 1, 2, 3 with 1 and 2 children of the
root and 3 a child of 2. -/
def fsC1 : Filesystem :=
  ⟨[], [mkNode 1 "a", mkNode 2 "b", mkNode 3 "c"], [(0, [1, 2]), (2, [3])]⟩

/-- Claim C1 (code bug): moving node 1 under node 2 in `fsC1` succeeds, but
the resulting child list of node 2 is `[1, 2]` — the old parent's remaining
children with 1 prepended — instead of `[1, 3]` as the claim requires: node
2's own child 3 is dropped and node 2 becomes its own child, because `mv`
reads the old parent's child list where it should read the new parent's. -/
theorem C1_mv_clobbers_new_parent_children :
    (fsC1.mv 1 2).1 = .ok () ∧
    hmGet (fsC1.mv 1 2).2.graph 2 = some [1, 2] ∧
    hmGet (fsC1.mv 1 2).2.graph 2 ≠ some [1, 3] := by
  refine ⟨rfl, rfl, by decide⟩

end ClaimC1

section ClaimC10

/-- Claim C10: the `data` field of `Filesystem::get(id)` lists the node's
chunk descriptors in global chunk-table order (a filter of the table), not
in the order of the node's own `data` id list; the second conjunct exhibits
a concrete state where the two orders differ, so the returned sequence is
not in the file's content order. -/
theorem C10_get_data_in_table_order (fs : Filesystem) (id : Nat) (node : Node)
    (hid : id ≠ 0) (hfind : fs.nodes.find? (fun n => n.id == id) = some node) :
    fs.get id = .ok ⟨node.id, node.name, node.size, node.is_file, node.metadata,
        fs.data.filter (fun d => node.data.contains d.id), node.tags⟩ ∧
    ((Filesystem.get
        ⟨[⟨1, [], [], []⟩, ⟨2, [], [], []⟩],
         [⟨1, "f", 0, true, [], [2, 1], []⟩],
         [(0, [1])]⟩ 1).map (fun f => f.data.map Data.id)) = .ok [1, 2] := by
  constructor
  · unfold Filesystem.get
    rw [if_neg hid, hfind]
  · rfl

/-- Witness for claim C10: the table-order fact applied to a concrete state
whose node lists its chunk ids as `[2, 1]`. -/
theorem C10_witness :
    (Filesystem.get
        ⟨[⟨1, [], [], []⟩, ⟨2, [], [], []⟩],
         [⟨1, "f", 0, true, [], [2, 1], []⟩],
         [(0, [1])]⟩ 1) =
      .ok ⟨1, "f", 0, true, [],
        [⟨1, [], [], []⟩, ⟨2, [], [], []⟩].filter
          (fun d => [2, 1].contains d.id), []⟩ :=
  (C10_get_data_in_table_order
      ⟨[⟨1, [], [], []⟩, ⟨2, [], [], []⟩],
       [⟨1, "f", 0, true, [], [2, 1], []⟩],
       [(0, [1])]⟩ 1 ⟨1, "f", 0, true, [], [2, 1], []⟩
      (by decide) (by rfl)).1

end ClaimC10

/-- Core of `next_node_id` / `next_data_id` (filesystem.rs lines 62-91): sort
the ids, zip with `1..=len`, return the first index where they disagree, or
`len + 1` when they never do.  `itertools::sorted` is modelled by insertion
sort (any comparison sort gives the same list). -/
def nextId (ids : List Nat) : Nat :=
  let len := ids.length
  match ((ids.insertionSort (· ≤ ·)).zip (List.range' 1 len)).find?
      (fun p => p.1 != p.2) with
  | some p => p.2
  | none => len + 1

/-- `Filesystem::next_node_id`. -/
def Filesystem.next_node_id (fs : Filesystem) : Nat :=
  nextId (fs.nodes.map (fun n => n.id))

/-- `Filesystem::next_data_id`. -/
def Filesystem.next_data_id (fs : Filesystem) : Nat :=
  nextId (fs.data.map (fun d => d.id))

/-- Structural recursion equivalent to the zip-and-find scan of `nextId` on
an already sorted list starting at candidate `j`. -/
def scanId : List Nat → Nat → Nat
  | [], j => j
  | a :: t, j => if a = j then scanId t (j + 1) else j

section ClaimC6

lemma zipFind_eq_scanId (s : List Nat) (j : Nat) :
    (match (s.zip (List.range' j s.length)).find? (fun p => p.1 != p.2) with
     | some p => p.2
     | none => j + s.length) = scanId s j := by
  induction s generalizing j with
  | nil => rfl
  | cons a t ih =>
    rw [List.length_cons, List.range'_succ, List.zip_cons_cons]
    by_cases ha : a = j
    · subst ha
      rw [List.find?_cons_of_neg _ (by simp)]
      have hscan : scanId (a :: t) a = scanId t (a + 1) := by simp [scanId]
      rw [hscan]
      have harith : a + (t.length + 1) = a + 1 + t.length := by omega
      rw [harith]
      exact ih (a + 1)
    · rw [List.find?_cons_of_pos _ (by simpa using ha)]
      have hscan : scanId (a :: t) j = j := by simp [scanId, ha]
      rw [hscan]

lemma scanId_spec (s : List Nat) (j : Nat) (hs : s.Pairwise (· < ·))
    (hge : ∀ x ∈ s, j ≤ x) :
    scanId s j ∉ s ∧ j ≤ scanId s j ∧
      ∀ m, j ≤ m → m < scanId s j → m ∈ s := by
  induction s generalizing j with
  | nil =>
    refine ⟨by simp, Nat.le_refl j, ?_⟩
    intro m hm hm'
    have hz : scanId [] j = j := rfl
    rw [hz] at hm'
    omega
  | cons a t ih =>
    have hpair := List.pairwise_cons.mp hs
    by_cases ha : a = j
    · subst ha
      have hge' : ∀ x ∈ t, a + 1 ≤ x := fun x hx => hpair.1 x hx
      obtain ⟨h1, h2, h3⟩ := ih (a + 1) hpair.2 hge'
      have hscan : scanId (a :: t) a = scanId t (a + 1) := by simp [scanId]
      rw [hscan]
      refine ⟨?_, by omega, ?_⟩
      · intro hmem
        rcases List.mem_cons.mp hmem with h | h
        · omega
        · exact h1 h
      · intro m hm hm'
        rcases Nat.eq_or_lt_of_le hm with h | h
        · exact List.mem_cons.mpr (Or.inl h.symm)
        · exact List.mem_cons.mpr (Or.inr (h3 m h hm'))
    · have hscan : scanId (a :: t) j = j := by simp [scanId, ha]
      rw [hscan]
      refine ⟨?_, Nat.le_refl j, ?_⟩
      · intro hmem
        rcases List.mem_cons.mp hmem with h | h
        · exact ha h.symm
        · have h1 := hge a (List.mem_cons_self a t)
          have h2 := hpair.1 j h
          omega
      · intro m hm hm'
        omega

lemma nextId_spec (ids : List Nat) (hnd : ids.Nodup)
    (hpos : ∀ x ∈ ids, 0 < x) :
    0 < nextId ids ∧ nextId ids ∉ ids ∧
      ∀ m, 0 < m → m < nextId ids → m ∈ ids := by
  have hperm : List.Perm (ids.insertionSort (· ≤ ·)) ids :=
    List.perm_insertionSort _ ids
  have hsorted : (ids.insertionSort (· ≤ ·)).Sorted (· ≤ ·) :=
    List.sorted_insertionSort _ ids
  have hnd' : (ids.insertionSort (· ≤ ·)).Nodup := hperm.symm.nodup hnd
  have hlt : (ids.insertionSort (· ≤ ·)).Pairwise (· < ·) :=
    (hsorted.and hnd').imp (fun h => lt_of_le_of_ne h.1 h.2)
  have hge : ∀ x ∈ ids.insertionSort (· ≤ ·), 1 ≤ x := fun x hx =>
    hpos x (hperm.mem_iff.mp hx)
  have hlen : ids.length = (ids.insertionSort (· ≤ ·)).length :=
    hperm.length_eq.symm
  have heq : nextId ids = scanId (ids.insertionSort (· ≤ ·)) 1 := by
    have hzf := zipFind_eq_scanId (ids.insertionSort (· ≤ ·)) 1
    rw [← hlen] at hzf
    simp only [nextId]
    cases hfind : (((ids.insertionSort (· ≤ ·)).zip
        (List.range' 1 ids.length)).find? (fun p => p.1 != p.2)) with
    | none =>
      simp only [hfind] at hzf ⊢
      rw [Nat.add_comm] at hzf
      exact hzf
    | some p =>
      simp only [hfind] at hzf ⊢
      exact hzf
  obtain ⟨h1, h2, h3⟩ :=
    scanId_spec (ids.insertionSort (· ≤ ·)) 1 hlt hge
  rw [heq]
  refine ⟨by omega, ?_, ?_⟩
  · intro hmem
    exact h1 (hperm.mem_iff.mpr hmem)
  · intro m hm hm'
    exact hperm.mem_iff.mp (h3 m (by omega) hm')

/-- Claim C6: when all node ids are pairwise distinct and positive,
`next_node_id()` is the smallest positive integer absent from the node
table, and under the same hypothesis on chunk ids `next_data_id()` is the
smallest positive integer absent from the chunk table. -/
theorem C6_next_ids_smallest_hole (fs : Filesystem)
    (hnodes : (fs.nodes.map (fun n => n.id)).Nodup)
    (hnpos : ∀ x ∈ fs.nodes.map (fun n => n.id), 0 < x)
    (hdata : (fs.data.map (fun d => d.id)).Nodup)
    (hdpos : ∀ x ∈ fs.data.map (fun d => d.id), 0 < x) :
    (0 < fs.next_node_id ∧
       fs.next_node_id ∉ fs.nodes.map (fun n => n.id) ∧
       ∀ m, 0 < m → m < fs.next_node_id → m ∈ fs.nodes.map (fun n => n.id)) ∧
    (0 < fs.next_data_id ∧
       fs.next_data_id ∉ fs.data.map (fun d => d.id) ∧
       ∀ m, 0 < m → m < fs.next_data_id → m ∈ fs.data.map (fun d => d.id)) :=
  ⟨nextId_spec _ hnodes hnpos, nextId_spec _ hdata hdpos⟩

/-- Concrete state for the C6 witness: node ids 1, 2, 5 and chunk ids 2, 3
(so the smallest holes are 3 and 1, as in the repository's own unit test). -/
def fsC6 : Filesystem :=
  ⟨[⟨2, [], [], []⟩, ⟨3, [], [], []⟩],
   [mkNode 1 "a", mkNode 2 "b", mkNode 5 "c"], []⟩

/-- Witness for claim C6, at the state `fsC6`. -/
theorem C6_witness :
    (fsC6.nodes.map (fun n => n.id)).Nodup ∧
    (∀ x ∈ fsC6.nodes.map (fun n => n.id), 0 < x) ∧
    (fsC6.data.map (fun d => d.id)).Nodup ∧
    (∀ x ∈ fsC6.data.map (fun d => d.id), 0 < x) ∧
    fsC6.next_node_id = 3 ∧ fsC6.next_data_id = 1 ∧
    (0 < fsC6.next_node_id ∧
       fsC6.next_node_id ∉ fsC6.nodes.map (fun n => n.id) ∧
       ∀ m, 0 < m → m < fsC6.next_node_id → m ∈ fsC6.nodes.map (fun n => n.id)) ∧
    (0 < fsC6.next_data_id ∧
       fsC6.next_data_id ∉ fsC6.data.map (fun d => d.id) ∧
       ∀ m, 0 < m → m < fsC6.next_data_id → m ∈ fsC6.data.map (fun d => d.id)) :=
  ⟨by decide, by decide, by decide, by decide, by rfl, by rfl,
   (C6_next_ids_smallest_hole fsC6 (by decide) (by decide) (by decide)
      (by decide)).1,
   (C6_next_ids_smallest_hole fsC6 (by decide) (by decide) (by decide)
      (by decide)).2⟩

end ClaimC6

/-- Rust `tag.starts_with('!')` for the single character `'!'`. -/
def startsBang (s : String) : Bool :=
  match s.data with
  | [] => false
  | c :: _ => c == '!'

/-- Rust `tag.replace('!', "")`: remove every `'!'` character (not only a
leading one). -/
def stripBangs (s : String) : String :=
  ⟨s.data.filter (fun c => c != '!')⟩

/-- One step of the parent walk in `Filesystem::path` (filesystem.rs lines
550-572), with fuel.  The Rust loop is deterministic, so if it has not
reached the root after `graph.length` steps a key has repeated and the loop
runs forever; `none` models that divergence. -/
def pathLoop (g : Graph) : Nat → Nat → List Nat → Option (Except Error (List Nat))
  | fuel, node_id, acc =>
    if node_id = 0 then some (.ok acc)
    else
      match fuel with
      | 0 => none
      | fuel' + 1 =>
        match g.find? (fun e => e.2.contains node_id) with
        | none => some (.error .FileDoesNotExistError)
        | some e => pathLoop g fuel' e.1 (acc ++ [e.1])

/-- `Filesystem::path`: walk parents to the root collecting ids, then print
the names of the ids that resolve in the node table, joined by `/`. -/
def Filesystem.path (fs : Filesystem) (id : Nat) : Option (Except Error String) :=
  match pathLoop fs.graph (fs.graph.length + 1) id [id] with
  | none => none
  | some (.error e) => some (.error e)
  | some (.ok ids) =>
      some (.ok ("/" ++ String.intercalate "/"
        ((ids.reverse.filterMap (fun i => fs.nodes.find? (fun n => n.id == i))).map
          (fun n => n.name))))

/-- The string produced by a successful `Filesystem::path`, with `""` as a
placeholder when the call panics, diverges or errors. -/
def pathStr (fs : Filesystem) (id : Nat) : String :=
  match fs.path id with
  | some (.ok p) => p
  | _ => ""

/-- The `.map(|file| File { name: self.path(file.id).unwrap(), ..file })`
step of `search_tag` and `ls_all`: rename every file to its full path,
`none` when any `path` call panics (`unwrap` of an `Err`) or diverges. -/
def renameAll (fs : Filesystem) : List File → Option (List File)
  | [] => some []
  | f :: rest =>
    match fs.path f.id with
    | some (.ok p) => (renameAll fs rest).map (fun l => { f with name := p } :: l)
    | _ => none

/-- `Filesystem::search_tag` (filesystem.rs lines 668-684): partition the
queries on a leading `'!'`, strip every `'!'` from the exclude queries, keep
the nodes whose count of tags inside the include list equals the include
list's length and whose count of tags inside the exclude list is zero, then
resolve each through `get` and rename it to its full path. -/
def Filesystem.search_tag (fs : Filesystem) (tags : List String) : Option (List File) :=
  let part := tags.partition (fun tag => !(startsBang tag))
  let inc := part.1
  let exc := part.2.map (fun tag => stripBangs tag)
  let files := ((fs.nodes.filter (fun node =>
      (node.tags.filter (fun tag => inc.contains tag)).length == inc.length)).filter
      (fun node =>
      (node.tags.filter (fun tag => exc.contains tag)).length == 0)).filterMap
      (fun node => (fs.get node.id).toOption)
  renameAll fs files

/-- The include queries in the spec's reading: those without a leading
`'!'`. -/
def inclQueries (qs : List String) : List String :=
  qs.filter (fun t => !(startsBang t))

/-- The exclude queries in the spec's reading: leading `'!'` stripped. -/
def exclQueriesSpec (qs : List String) : List String :=
  (qs.filter (fun t => startsBang t)).map (fun t => (⟨t.data.drop 1⟩ : String))

/-- The exclude queries as the code computes them: every `'!'` removed. -/
def exclQueriesCode (qs : List String) : List String :=
  (qs.filter (fun t => startsBang t)).map (fun t => stripBangs t)

/-- The matching condition of the amended claim C7: the node carries every
include query and none of the (fully `'!'`-stripped) exclude queries. -/
def specMatchB (qs : List String) (n : Node) : Bool :=
  ((inclQueries qs).all (fun t => n.tags.contains t)) &&
    ((exclQueriesCode qs).all (fun t => !(n.tags.contains t)))

/-- The `File` view `Filesystem::get` builds for a non-root node found in
the table. -/
def fileOf (fs : Filesystem) (n : Node) : File :=
  ⟨n.id, n.name, n.size, n.is_file, n.metadata,
   fs.data.filter (fun d => n.data.contains d.id), n.tags⟩

section ClaimC7

/-- Concrete state for claim C7: one node tagged `"a"`, child of the root. -/
def fsC7 : Filesystem :=
  ⟨[], [⟨1, "x", 0, true, [], [], ["a"]⟩], [(0, [1])]⟩

/-- Concrete state for the second part of claim C7: one node tagged `"ab"`,
child of the root. -/
def fsC7b : Filesystem :=
  ⟨[], [⟨1, "x", 0, true, [], [], ["ab"]⟩], [(0, [1])]⟩

/-- Claim C7 is false as stated, in two ways.  With the duplicate query list
`["a", "a"]` the node of `fsC7` contains every query without a leading `'!'`
and no exclude query exists, yet `search_tag` returns the empty list,
because the code compares a count of matching tag occurrences against the
query-list length.  With the query `["!a!b"]` the claim's exclude tag is
`"a!b"` (leading `'!'` stripped), which the node of `fsC7b` does not carry,
yet `search_tag` returns the empty list, because the code strips every
`'!'` and excludes `"ab"`. -/
theorem C7_counterexample :
    (fsC7.search_tag ["a", "a"] = some [] ∧
      (∀ q ∈ inclQueries ["a", "a"], q ∈ ["a"]) ∧
      exclQueriesSpec ["a", "a"] = []) ∧
    (fsC7b.search_tag ["!a!b"] = some [] ∧
      inclQueries ["!a!b"] = [] ∧
      (∀ q ∈ exclQueriesSpec ["!a!b"], q ∉ ["ab"])) := by
  refine ⟨⟨by decide, by decide, by decide⟩, ⟨by decide, by decide, by decide⟩⟩

lemma count_all_incl (tags incl : List String) (ht : tags.Nodup) (hi : incl.Nodup) :
    (tags.filter (fun t => incl.contains t)).length = incl.length ↔
      ∀ t ∈ incl, t ∈ tags := by
  have hft : (tags.filter (fun t => incl.contains t)).Nodup := ht.filter _
  have hfin : (tags.filter (fun t => incl.contains t)).toFinset
      = tags.toFinset ∩ incl.toFinset := by
    ext x
    simp [List.mem_filter]
  rw [← List.toFinset_card_of_nodup hft, ← List.toFinset_card_of_nodup hi, hfin]
  constructor
  · intro h t htin
    have hsub : tags.toFinset ∩ incl.toFinset = incl.toFinset :=
      Finset.eq_of_subset_of_card_le Finset.inter_subset_right (le_of_eq h.symm)
    have hmem : t ∈ tags.toFinset ∩ incl.toFinset := by
      rw [hsub]
      exact List.mem_toFinset.mpr htin
    exact List.mem_toFinset.mp (Finset.mem_inter.mp hmem).1
  · intro h
    have hsub : incl.toFinset ⊆ tags.toFinset := by
      intro t htin
      exact List.mem_toFinset.mpr (h t (List.mem_toFinset.mp htin))
    rw [Finset.inter_eq_right.mpr hsub]

lemma count_zero_excl (tags excl : List String) :
    ((tags.filter (fun t => excl.contains t)).length = 0) ↔
      ∀ t ∈ excl, t ∉ tags := by
  rw [List.length_eq_zero, List.filter_eq_nil_iff]
  constructor
  · intro h t htexcl htags
    exact h t htags (by simpa using htexcl)
  · intro h t htags hc
    exact h t (by simpa using hc) htags

lemma find?_id_of_mem (nodes : List Node) (n : Node) (hmem : n ∈ nodes)
    (hnd : (nodes.map (fun m => m.id)).Nodup) :
    nodes.find? (fun m => m.id == n.id) = some n := by
  induction nodes with
  | nil => cases hmem
  | cons a t ih =>
    rw [List.map_cons] at hnd
    have hnd' := List.nodup_cons.mp hnd
    rcases List.mem_cons.mp hmem with h | h
    · subst h
      exact List.find?_cons_of_pos _ (by simp)
    · have hne : (a.id == n.id) = false := by
        simp only [beq_eq_false_iff_ne, ne_eq]
        intro he
        exact hnd'.1 (he ▸ List.mem_map_of_mem (fun m => m.id) h)
      rw [List.find?_cons_of_neg _ (by simp [hne])]
      exact ih h hnd'.2

lemma get_of_mem (fs : Filesystem) (n : Node) (hmem : n ∈ fs.nodes)
    (hnd : (fs.nodes.map (fun m => m.id)).Nodup) (h0 : n.id ≠ 0) :
    fs.get n.id = .ok (fileOf fs n) := by
  unfold Filesystem.get
  rw [if_neg h0, find?_id_of_mem fs.nodes n hmem hnd]
  rfl

lemma filterMap_get_eq_map (fs : Filesystem) (l : List Node)
    (h : ∀ n ∈ l, fs.get n.id = .ok (fileOf fs n)) :
    l.filterMap (fun n => (fs.get n.id).toOption) = l.map (fileOf fs) := by
  induction l with
  | nil => rfl
  | cons a t ih =>
    rw [List.filterMap_cons, h a (List.mem_cons_self a t)]
    rw [List.map_cons, ih (fun n hn => h n (List.mem_cons_of_mem a hn))]
    rfl

lemma renameAll_map (fs : Filesystem) (l : List Node)
    (h : ∀ n ∈ l, fs.path n.id = some (.ok (pathStr fs n.id))) :
    renameAll fs (l.map (fileOf fs)) =
      some (l.map (fun n => { fileOf fs n with name := pathStr fs n.id })) := by
  induction l with
  | nil => rfl
  | cons a t ih =>
    rw [List.map_cons, renameAll]
    have ha : fs.path (fileOf fs a).id = some (.ok (pathStr fs a.id)) :=
      h a (List.mem_cons_self a t)
    rw [ha, ih (fun n hn => h n (List.mem_cons_of_mem a hn))]
    rfl

/-- Claim C7, amended: the code compares occurrence counts rather than
containment and strips every `'!'` from the exclude queries, so the claim
holds for states in which every node's tag list is duplicate-free and the
include queries are pairwise distinct, with the exclude queries read as
fully `'!'`-stripped; and `search_tag` returns normally only when `path`
succeeds on every matching node, which is hypothesised.  Under those
hypotheses the returned files are exactly the matching nodes, resolved
through `get` in node-table order, each renamed to its full path. -/
theorem C7_amended_search_tag (fs : Filesystem) (qs : List String)
    (hids : (fs.nodes.map (fun n => n.id)).Nodup)
    (h0 : ∀ n ∈ fs.nodes, n.id ≠ 0)
    (htags : ∀ n ∈ fs.nodes, n.tags.Nodup)
    (hincl : (inclQueries qs).Nodup)
    (hpath : ∀ n ∈ fs.nodes, specMatchB qs n = true →
        fs.path n.id = some (.ok (pathStr fs n.id))) :
    fs.search_tag qs = some ((fs.nodes.filter (specMatchB qs)).map
        (fun n => { fileOf fs n with name := pathStr fs n.id })) := by
  have hpart2 : (qs.partition (fun tag => !(startsBang tag))).2.map
      (fun tag => stripBangs tag) = exclQueriesCode qs := by
    rw [List.partition_eq_filter_filter]
    unfold exclQueriesCode
    congr 1
    exact List.filter_congr (fun x _ => by simp [Function.comp])
  have hpart1 : (qs.partition (fun tag => !(startsBang tag))).1 = inclQueries qs := by
    rw [List.partition_eq_filter_filter]
    rfl
  have hfilter :
      ((fs.nodes.filter (fun node =>
          (node.tags.filter (fun tag => (inclQueries qs).contains tag)).length
            == (inclQueries qs).length)).filter
        (fun node =>
          (node.tags.filter (fun tag => (exclQueriesCode qs).contains tag)).length
            == 0))
      = fs.nodes.filter (specMatchB qs) := by
    rw [List.filter_filter]
    refine List.filter_congr (fun n hn => ?_)
    refine Bool.coe_iff_coe.mp ?_
    simp only [Bool.and_eq_true, beq_iff_eq, specMatchB, List.all_eq_true,
      Bool.not_eq_true']
    rw [count_all_incl n.tags (inclQueries qs) (htags n hn) hincl,
      count_zero_excl n.tags (exclQueriesCode qs)]
    constructor
    · intro h
      exact ⟨fun t ht => by simpa using h.2 t ht,
             fun t ht => by simpa using fun hc => h.1 t ht hc⟩
    · intro h
      exact ⟨fun t ht => by simpa using h.2 t ht,
             fun t ht => by simpa using h.1 t ht⟩
  have hmems : ∀ n ∈ fs.nodes.filter (specMatchB qs), n ∈ fs.nodes :=
    fun n hn => List.mem_of_mem_filter hn
  have hget : ∀ n ∈ fs.nodes.filter (specMatchB qs),
      fs.get n.id = .ok (fileOf fs n) :=
    fun n hn => get_of_mem fs n (hmems n hn) hids (h0 n (hmems n hn))
  have hpath' : ∀ n ∈ fs.nodes.filter (specMatchB qs),
      fs.path n.id = some (.ok (pathStr fs n.id)) :=
    fun n hn => hpath n (hmems n hn) (List.of_mem_filter hn)
  show renameAll fs _ = _
  rw [hpart1, hpart2, hfilter, filterMap_get_eq_map fs _ hget,
    renameAll_map fs _ hpath']

/-- Concrete state for the C7 witness: one node tagged `"a"` and `"b"`,
child of the root. -/
def fsC7w : Filesystem :=
  ⟨[], [⟨1, "x", 0, true, [], [], ["a", "b"]⟩], [(0, [1])]⟩

/-- Witness for the amended claim C7, at `fsC7w` with queries
`["a", "!c"]`: the single node matches and is returned under its full path
`"/x"`. -/
theorem C7_witness :
    (fsC7w.nodes.map (fun n => n.id)).Nodup ∧
    (∀ n ∈ fsC7w.nodes, n.id ≠ 0) ∧
    (∀ n ∈ fsC7w.nodes, n.tags.Nodup) ∧
    (inclQueries ["a", "!c"]).Nodup ∧
    fsC7w.search_tag ["a", "!c"] =
      some ((fsC7w.nodes.filter (specMatchB ["a", "!c"])).map
        (fun n => { fileOf fsC7w n with name := pathStr fsC7w n.id })) :=
  ⟨by decide, by decide, by decide, by decide,
   C7_amended_search_tag fsC7w ["a", "!c"] (by decide) (by decide) (by decide)
     (by decide)
     (fun n hn _ => by
       simp only [fsC7w] at hn
       rw [List.mem_singleton] at hn
       subst hn
       rfl)⟩

end ClaimC7

/-- The `Path` record from `src/void/src/path.rs`. -/
structure Path where
  name : String
  path : String
  parent : String
  deriving DecidableEq, Repr

/-- The `regex [/]+ -> "/"` collapse in `Path::new`: squeeze runs of `'/'`
into one (the flag remembers whether the previous kept character was a
slash). -/
def collapseAux : List Char → Bool → List Char
  | [], _ => []
  | c :: rest, prev =>
    if c = '/' then
      if prev then collapseAux rest true else '/' :: collapseAux rest true
    else
      c :: collapseAux rest false

/-- Squeeze every run of slashes in a character list. -/
def collapse (l : List Char) : List Char := collapseAux l false

/-- Split a character list on `'/'`, keeping empty pieces for now. -/
def splitSegsAux : List Char → List Char → List (List Char)
  | [], cur => [cur]
  | c :: rest, cur =>
    if c = '/' then cur :: splitSegsAux rest [] else splitSegsAux rest (cur ++ [c])

/-- The path segments of a character list: split on `'/'` and drop the empty
pieces (as `std::path::Components` does). -/
def splitSegs (l : List Char) : List (List Char) :=
  (splitSegsAux l []).filter (fun s => s ≠ [])

/-- Lexical normalization of an absolute segment list, as the
`path-absolutize` crate performs it on Unix: `"."` disappears, `".."` pops
(and stays at the root when there is nothing to pop). -/
def normAbs (segs : List (List Char)) : List (List Char) :=
  segs.foldl
    (fun acc seg =>
      if seg = ['.'] then acc
      else if seg = ['.', '.'] then acc.dropLast
      else acc ++ [seg])
    []

/-- Print an absolute path from its normalized segments. -/
def joinAbs (segs : List (List Char)) : List Char :=
  '/' :: List.intercalate ['/'] segs

/-- `Path::new` from `path.rs` lines 39-79, with the process working
directory as an explicit parameter (the Rust code reads it from the OS when
the input is relative; `cwd` is assumed absolute and normalized, and the
crate's behavior on an empty relative remainder is taken to be the working
directory itself).  Squeeze slashes; absolutize; strip one trailing slash
except for the root; `name` is the last normal component of the squeezed
input (`None` if it ends in `".."` or there is none — then only the root
survives); `parent` is the absolutized parent of the squeezed input. -/
def pathNew (cwd : String) (p : String) : Option Path :=
  let collapsed := collapse p.data
  let isAbs := collapsed.head? = some '/'
  let segs := splitSegs collapsed
  let prefixSegs : List (List Char) := if isAbs then [] else splitSegs cwd.data
  let a := joinAbs (normAbs (prefixSegs ++ segs))
  let pathL := if a ≠ ['/'] ∧ a.getLast? = some '/' then a.dropLast else a
  let fSegs := segs.filter (fun s => s ≠ ['.'])
  let nameO : Option String :=
    match fSegs.getLast? with
    | some l => if l = ['.', '.'] then none else some ⟨l⟩
    | none => none
  let parentO : Option String :=
    if collapsed = [] ∨ collapsed = ['/'] then none
    else some ⟨joinAbs (normAbs (prefixSegs ++ fSegs.dropLast))⟩
  match nameO with
  | none =>
    if pathL = ['/'] then
      match parentO with
      | none => some ⟨"", ⟨pathL⟩, "/"⟩
      | some par => some ⟨"", ⟨pathL⟩, par⟩
    else none
  | some nm =>
    match parentO with
    | none => if pathL = ['/'] then some ⟨nm, ⟨pathL⟩, "/"⟩ else none
    | some par => some ⟨nm, ⟨pathL⟩, par⟩

/-- Rust `s[..s.len()-1]` stripping of one trailing `'/'`, applied to
`remove` in `with_root`. -/
def stripTrailingSlash (s : String) : String :=
  if s.data.getLast? = some '/' then ⟨s.data.dropLast⟩ else s

/-- Index of the first occurrence of `pat` as a contiguous sublist of `l`
(`str::find` / the position `str::replacen` rewrites). -/
def firstOccur : List Char → List Char → Option Nat
  | l, pat =>
    if pat.isPrefixOf l then some 0
    else
      match l with
      | [] => none
      | _ :: rest => (firstOccur rest pat).map (fun i => i + 1)

/-- Rust `str::contains` for a string pattern. -/
def containsSub (l pat : List Char) : Bool :=
  (firstOccur l pat).isSome

/-- Rust `str::replacen(pat, rep, 1)`: replace the first occurrence of
`pat`, if any, by `rep`. -/
def replaceOnce (l pat rep : List Char) : List Char :=
  match firstOccur l pat with
  | none => l
  | some i => l.take i ++ rep ++ l.drop (i + pat.length)

/-- `Path::with_root` from `path.rs` lines 90-118: strip a trailing slash
from both arguments (keeping a root `new_root`), fail when `remove` does not
occur anywhere in `self.path` as a substring, fail when deleting its first
occurrence leaves a non-empty string that does not start with `'/'`, and
otherwise rebuild a `Path` from `self.path` with the first occurrence of
`remove` replaced by `new_root`. -/
def Path.with_root (p : Path) (remove new_root : String) (cwd : String) : Option Path :=
  let remove := stripTrailingSlash remove
  let new_root : String :=
    if new_root.data.getLast? = some '/' ∧ new_root ≠ "/" then
      ⟨new_root.data.dropLast⟩
    else new_root
  if containsSub p.path.data remove.data = false then none
  else
    let removed := replaceOnce p.path.data remove.data []
    if removed.head? ≠ some '/' ∧ removed ≠ [] then none
    else pathNew cwd ⟨replaceOnce p.path.data remove.data new_root.data⟩

section ClaimC5

lemma firstOccur_isPrefix (l pat : List Char) (i : Nat)
    (h : firstOccur l pat = some i) : pat.IsPrefix (l.drop i) := by
  induction l generalizing i with
  | nil =>
    rw [firstOccur] at h
    by_cases hp : pat.isPrefixOf ([] : List Char)
    · rw [if_pos hp] at h
      cases h
      exact List.isPrefixOf_iff_prefix.mp hp
    · rw [if_neg hp] at h
      cases h
  | cons c rest ih =>
    rw [firstOccur] at h
    by_cases hp : pat.isPrefixOf (c :: rest)
    · rw [if_pos hp] at h
      cases h
      exact List.isPrefixOf_iff_prefix.mp hp
    · rw [if_neg hp] at h
      cases hfo : firstOccur rest pat with
      | none => rw [hfo] at h; cases h
      | some i' =>
        rw [hfo] at h
        simp at h
        subst h
        exact ih i' hfo

/-- Claim C5, amended: `with_root` uses a substring search, not a prefix
test.  It returns `None` when the (trailing-slash-stripped) `remove` does
not occur in `self.path`, and when the first occurrence is initial but is
neither the whole path nor followed by `'/'`; and a value is returned only
when `remove` occurs and an initial first occurrence is a prefix boundary.
An occurrence after the start of the path passes the check, so `remove`
need not be a prefix of `self.path` (the counterexample). -/
theorem C5_amended_with_root (p : Path) (remove new_root cwd : String) :
    (containsSub p.path.data (stripTrailingSlash remove).data = false →
      p.with_root remove new_root cwd = none) ∧
    ((replaceOnce p.path.data (stripTrailingSlash remove).data []) ≠ [] →
      (replaceOnce p.path.data (stripTrailingSlash remove).data []).head? ≠ some '/' →
      p.with_root remove new_root cwd = none) ∧
    (p.with_root remove new_root cwd ≠ none →
      ∃ i, firstOccur p.path.data (stripTrailingSlash remove).data = some i ∧
        (i = 0 →
          (stripTrailingSlash remove).data.length = p.path.data.length ∨
          (p.path.data.drop (stripTrailingSlash remove).data.length).head? =
            some '/')) := by
  refine ⟨?_, ?_, ?_⟩
  · intro h
    rw [Path.with_root, if_pos h]
  · intro h1 h2
    rw [Path.with_root]
    by_cases hc : containsSub p.path.data (stripTrailingSlash remove).data = false
    · rw [if_pos hc]
    · rw [if_neg hc, if_pos ⟨h2, h1⟩]
  · intro h
    rw [Path.with_root] at h
    by_cases hc : containsSub p.path.data (stripTrailingSlash remove).data = false
    · rw [if_pos hc] at h
      exact absurd rfl h
    · rw [if_neg hc] at h
      have hocc : ∃ i, firstOccur p.path.data (stripTrailingSlash remove).data = some i := by
        rcases hfo : firstOccur p.path.data (stripTrailingSlash remove).data with _ | i
        · exact absurd (by rw [containsSub, hfo]; rfl) hc
        · exact ⟨i, rfl⟩
      rcases hocc with ⟨i, hi⟩
      refine ⟨i, hi, ?_⟩
      intro hi0
      subst hi0
      by_cases hck : (replaceOnce p.path.data (stripTrailingSlash remove).data []).head? ≠ some '/' ∧
          (replaceOnce p.path.data (stripTrailingSlash remove).data []) ≠ []
      · rw [if_pos hck] at h
        exact absurd rfl h
      · have hrep : replaceOnce p.path.data (stripTrailingSlash remove).data [] =
            p.path.data.drop (stripTrailingSlash remove).data.length := by
          simp [replaceOnce, hi]
        push_neg at hck
        by_cases hh : (replaceOnce p.path.data (stripTrailingSlash remove).data []).head? = some '/'
        · right
          rw [← hrep]
          exact hh
        · left
          have hemp := hck hh
          rw [hrep] at hemp
          have hle : (stripTrailingSlash remove).data.length ≤ p.path.data.length := by
            have hpre := firstOccur_isPrefix _ _ 0 hi
            rw [List.drop_zero] at hpre
            exact hpre.length_le
          have : p.path.data.length - (stripTrailingSlash remove).data.length = 0 := by
            rw [← List.length_drop, hemp]
            rfl
          omega

/-- Witness for the amended claim C5, at the path value for `"/a/som/b"`
with `remove = "/som"`, `new_root = "/x"`: the three amended properties hold
there. -/
theorem C5_witness :
    (containsSub ("/a/som/b" : String).data
        (stripTrailingSlash "/som").data = false →
      (⟨"b", "/a/som/b", "/a/som"⟩ : Path).with_root "/som" "/x" "/" = none) ∧
    ((replaceOnce ("/a/som/b" : String).data (stripTrailingSlash "/som").data []) ≠ [] →
      (replaceOnce ("/a/som/b" : String).data
          (stripTrailingSlash "/som").data []).head? ≠ some '/' →
      (⟨"b", "/a/som/b", "/a/som"⟩ : Path).with_root "/som" "/x" "/" = none) ∧
    ((⟨"b", "/a/som/b", "/a/som"⟩ : Path).with_root "/som" "/x" "/" ≠ none →
      ∃ i, firstOccur ("/a/som/b" : String).data (stripTrailingSlash "/som").data = some i ∧
        (i = 0 →
          (stripTrailingSlash "/som").data.length = ("/a/som/b" : String).data.length ∨
          (("/a/som/b" : String).data.drop
              (stripTrailingSlash "/som").data.length).head? = some '/')) :=
  C5_amended_with_root ⟨"b", "/a/som/b", "/a/som"⟩ "/som" "/x" "/"

/-- Claim C5 is false as stated: on the path `"/a/som/b"` the string
`"/som"` is not a prefix (so not a prefix boundary), yet `with_root("/som",
"/x")` returns a value, namely the path `"/a/x/b"` — the substring is
replaced at its first, non-initial occurrence.  The spec's own example
(`"/som"` against `"/some/longer/path"`) does return `None`, and the
embedding reproduces the repository's `Path::new` unit tests. -/
theorem C5_counterexample :
    pathNew "/" "/some/longer/path" =
      some ⟨"path", "/some/longer/path", "/some/longer"⟩ ∧
    (⟨"path", "/some/longer/path", "/some/longer"⟩ : Path).with_root
        "/som" "/a" "/" = none ∧
    pathNew "/" "/a/som/b" = some ⟨"b", "/a/som/b", "/a/som"⟩ ∧
    (⟨"b", "/a/som/b", "/a/som"⟩ : Path).with_root "/som" "/x" "/" =
      some ⟨"b", "/a/x/b", "/a/x"⟩ ∧
    List.isPrefixOf ("/som" : String).data ("/a/som/b" : String).data = false := by
  refine ⟨by decide, by decide, by decide, by decide, by decide⟩

end ClaimC5

/-- One lowercase hexadecimal digit, as `hex::encode` prints it. -/
def hexDigit (n : Nat) : Char :=
  if n < 10 then Char.ofNat (48 + n) else Char.ofNat (87 + n)

/-- `hex::encode` over a byte list: two lowercase hex digits per byte, high
nibble first. -/
def hexEncodeBytes (bs : List Nat) : List Char :=
  bs.flatMap (fun b => [hexDigit (b / 16), hexDigit (b % 16)])

/-- Little-endian decimal digits with fuel (structural recursion, so the
kernel can evaluate it; `decDigitsAux_eq` identifies it with
`Nat.digits`). -/
def decDigitsAux : Nat → Nat → List Nat
  | 0, _ => []
  | fuel + 1, n => if n = 0 then [] else n % 10 :: decDigitsAux fuel (n / 10)

/-- The UTF-8 bytes of `u64::to_string`: the decimal digits of `n`, most
significant first, as ASCII codes. -/
def decimalBytes (n : Nat) : List Nat :=
  if n = 0 then [48]
  else ((decDigitsAux (n + 1) n).reverse.map (fun d => 48 + d))

/-- The chunk file name the Store computes in `add`, `get` and `remove`
(`src/src/lib/store.rs`, e.g. lines 504-505 and 601-602):
`format!("{:0>32}", hex::encode(id.to_string()))` — the hex encoding of the
DECIMAL string of the id, left-padded with `'0'` to at least 32
characters. -/
def partName (n : Nat) : String :=
  let hexed := hexEncodeBytes (decimalBytes n)
  ⟨List.replicate (32 - hexed.length) '0' ++ hexed⟩

/-- The file name claim C9 describes: the hex encoding of the eight
big-endian bytes of the `u64` id, left-padded with `'0'` to 32
characters. -/
def specPartName (n : Nat) : String :=
  let hexed := hexEncodeBytes
    [n / 2 ^ 56 % 256, n / 2 ^ 48 % 256, n / 2 ^ 40 % 256, n / 2 ^ 32 % 256,
     n / 2 ^ 24 % 256, n / 2 ^ 16 % 256, n / 2 ^ 8 % 256, n % 256]
  ⟨List.replicate (32 - hexed.length) '0' ++ hexed⟩

section ClaimC9

lemma decDigitsAux_eq (fuel n : Nat) (h : n ≤ fuel) :
    decDigitsAux fuel n = Nat.digits 10 n := by
  induction fuel generalizing n with
  | zero =>
    have hn : n = 0 := by omega
    subst hn
    rw [Nat.digits_zero]
    rfl
  | succ fuel ih =>
    rw [decDigitsAux]
    by_cases h0 : n = 0
    · subst h0
      rw [if_pos rfl, Nat.digits_zero]
    · rw [if_neg h0, Nat.digits_def' (by norm_num) (Nat.pos_of_ne_zero h0)]
      congr 1
      have : n / 10 < n := Nat.div_lt_self (Nat.pos_of_ne_zero h0) (by norm_num)
      exact ih (n / 10) (by omega)

lemma decimalBytes_eq (n : Nat) :
    decimalBytes n =
      if n = 0 then [48] else ((Nat.digits 10 n).reverse.map (fun d => 48 + d)) := by
  rw [decimalBytes, decDigitsAux_eq (n + 1) n (by omega)]

/-- Claim C9 is false as stated: for chunk id 1 the code writes the file
`000...0031` (hex of the ASCII digit `"1"`), not `000...0001` (hex of the
big-endian u64); and for ids with 17 or more decimal digits the name is
longer than 32 characters, since the format only pads, never truncates. -/
theorem C9_counterexample :
    partName 1 = "00000000000000000000000000000031" ∧
    specPartName 1 = "00000000000000000000000000000001" ∧
    partName 1 ≠ specPartName 1 ∧
    (partName 10000000000000000).data.length = 34 := by
  refine ⟨by decide, by decide, by decide, by decide⟩

lemma decimalBytes_mem_range (n : Nat) :
    ∀ b ∈ decimalBytes n, 48 ≤ b ∧ b ≤ 57 := by
  intro b hb
  rw [decimalBytes_eq] at hb
  by_cases h0 : n = 0
  · rw [if_pos h0] at hb
    rcases List.mem_singleton.mp hb with rfl
    omega
  · rw [if_neg h0] at hb
    rcases List.mem_map.mp hb with ⟨d, hd, rfl⟩
    have hlt : d < 10 :=
      Nat.digits_lt_base (by norm_num) (List.mem_reverse.mp hd)
    omega

lemma decimalBytes_ne_singleton (k : Nat) (hk : k ≠ 0) :
    decimalBytes k ≠ [48] := by
  intro hcon
  rw [decimalBytes_eq, if_neg hk] at hcon
  have hne : Nat.digits 10 k ≠ [] := Nat.digits_ne_nil_iff_ne_zero.mpr hk
  have hlast : (Nat.digits 10 k).getLast hne ≠ 0 :=
    Nat.getLast_digit_ne_zero 10 hk
  have hrev : (Nat.digits 10 k).reverse =
      (Nat.digits 10 k).getLast hne :: ((Nat.digits 10 k).dropLast).reverse := by
    conv_lhs => rw [← List.dropLast_append_getLast hne]
    rw [List.reverse_append]
    rfl
  rw [hrev, List.map_cons] at hcon
  injection hcon with h1 h2
  exact hlast (by omega)

lemma decimalBytes_injective (m n : Nat) (h : decimalBytes m = decimalBytes n) :
    m = n := by
  by_cases hm : m = 0
  · by_cases hn : n = 0
    · omega
    · have hne := decimalBytes_ne_singleton n hn
      rw [decimalBytes_eq, if_pos hm] at h
      exact absurd h.symm hne
  · by_cases hn : n = 0
    · have hne := decimalBytes_ne_singleton m hm
      rw [decimalBytes_eq n, if_pos hn] at h
      exact absurd h hne
    · rw [decimalBytes_eq m, decimalBytes_eq n, if_neg hm, if_neg hn] at h
      have hmap : (Nat.digits 10 m).reverse = (Nat.digits 10 n).reverse :=
        List.map_injective_iff.mpr (fun a b hab => by omega) h
      have hdig : Nat.digits 10 m = Nat.digits 10 n :=
        List.reverse_injective hmap
      calc m = Nat.ofDigits 10 (Nat.digits 10 m) := (Nat.ofDigits_digits 10 m).symm
        _ = Nat.ofDigits 10 (Nat.digits 10 n) := by rw [hdig]
        _ = n := Nat.ofDigits_digits 10 n

lemma hexEncodeBytes_injective (bs cs : List Nat)
    (hb : ∀ b ∈ bs, b < 256) (hc : ∀ c ∈ cs, c < 256)
    (h : hexEncodeBytes bs = hexEncodeBytes cs) : bs = cs := by
  have hdig : ∀ a < 16, ∀ b < 16, hexDigit a = hexDigit b → a = b := by decide
  induction bs generalizing cs with
  | nil =>
    cases cs with
    | nil => rfl
    | cons c cs' => simp [hexEncodeBytes] at h
  | cons b bs' ih =>
    cases cs with
    | nil => simp [hexEncodeBytes] at h
    | cons c cs' =>
      simp only [hexEncodeBytes, List.flatMap_cons, List.cons_append,
        List.nil_append, List.cons.injEq] at h
      obtain ⟨h1, h2, h3⟩ := h
      have hb' := hb b (List.mem_cons_self b bs')
      have hc' := hc c (List.mem_cons_self c cs')
      have hbc : b = c := by
        have e1 : b / 16 = c / 16 :=
          hdig _ (by omega) _ (by omega) h1
        have e2 : b % 16 = c % 16 :=
          hdig _ (by omega) _ (by omega) h2
        omega
      subst hbc
      have htail := ih cs' (fun x hx => hb x (List.mem_cons_of_mem b hx))
        (fun x hx => hc x (List.mem_cons_of_mem b hx))
        (by simpa [hexEncodeBytes] using h3)
      rw [htail]

lemma hexEncodeBytes_decimal_head (n : Nat) :
    ∃ t, hexEncodeBytes (decimalBytes n) = '3' :: t := by
  obtain ⟨b, rest, hcons⟩ : ∃ b rest, decimalBytes n = b :: rest := by
    rw [decimalBytes_eq]
    by_cases h0 : n = 0
    · exact ⟨48, [], by rw [if_pos h0]⟩
    · rw [if_neg h0]
      rcases hrev : (Nat.digits 10 n).reverse with _ | ⟨d, ds⟩
      · have hne : Nat.digits 10 n ≠ [] := Nat.digits_ne_nil_iff_ne_zero.mpr h0
        exact absurd (by simpa using hrev) hne
      · exact ⟨48 + d, ds.map (fun d => 48 + d), by rw [List.map_cons]⟩
  have hb := decimalBytes_mem_range n b (hcons ▸ List.mem_cons_self b rest)
  refine ⟨hexDigit (b % 16) :: hexEncodeBytes rest, ?_⟩
  rw [hcons]
  simp only [hexEncodeBytes, List.flatMap_cons]
  have hdiv : b / 16 = 3 := by omega
  rw [hdiv]
  rfl

lemma dropWhile_replicate_append (k : Nat) (l : List Char) (t : List Char)
    (hl : l = '3' :: t) :
    (List.replicate k '0' ++ l).dropWhile (fun c => c == '0') = l := by
  induction k with
  | zero =>
    rw [List.replicate_zero, List.nil_append, hl]
    rfl
  | succ k ih =>
    rw [List.replicate_succ, List.cons_append, List.dropWhile_cons_of_pos (by rfl)]
    exact ih

/-- Claim C9, amended: the chunk file name is the lowercase hex encoding of
the DECIMAL ASCII representation of the id, left-padded with `'0'` to at
least 32 characters (exactly 32 only while the id has at most 16 decimal
digits); distinct ids still receive distinct file names. -/
theorem C9_amended_part_name (m n : Nat) (hmn : m ≠ n) :
    partName n =
      ⟨List.replicate (32 - (hexEncodeBytes (decimalBytes n)).length) '0' ++
        hexEncodeBytes (decimalBytes n)⟩ ∧
    (partName n).data.length =
      max 32 (2 * (decimalBytes n).length) ∧
    partName m ≠ partName n := by
  refine ⟨rfl, ?_, ?_⟩
  · have hlen : (hexEncodeBytes (decimalBytes n)).length =
        2 * (decimalBytes n).length := by
      rw [hexEncodeBytes]
      induction decimalBytes n with
      | nil => rfl
      | cons b bs ih =>
        simp only [List.flatMap_cons, List.length_append, List.length_cons,
          List.length_nil] at ih ⊢
        omega
    show (List.replicate (32 - (hexEncodeBytes (decimalBytes n)).length) '0' ++
        hexEncodeBytes (decimalBytes n)).length = _
    rw [List.length_append, List.length_replicate, hlen]
    omega
  · intro hcon
    have hdata : (partName m).data = (partName n).data := by rw [hcon]
    obtain ⟨tm, htm⟩ := hexEncodeBytes_decimal_head m
    obtain ⟨tn, htn⟩ := hexEncodeBytes_decimal_head n
    have hm' : ((partName m).data).dropWhile (fun c => c == '0') =
        hexEncodeBytes (decimalBytes m) :=
      dropWhile_replicate_append _ _ tm htm
    have hn' : ((partName n).data).dropWhile (fun c => c == '0') =
        hexEncodeBytes (decimalBytes n) :=
      dropWhile_replicate_append _ _ tn htn
    have hhex : hexEncodeBytes (decimalBytes m) = hexEncodeBytes (decimalBytes n) := by
      rw [← hm', ← hn', hdata]
    have hdec : decimalBytes m = decimalBytes n :=
      hexEncodeBytes_injective _ _
        (fun b hb => by have := decimalBytes_mem_range m b hb; omega)
        (fun c hc => by have := decimalBytes_mem_range n c hc; omega) hhex
    exact hmn (decimalBytes_injective m n hdec)

/-- Witness for the amended claim C9 at ids 1 and 2. -/
theorem C9_witness :
    (1 : Nat) ≠ 2 ∧
    partName 2 =
      ⟨List.replicate (32 - (hexEncodeBytes (decimalBytes 2)).length) '0' ++
        hexEncodeBytes (decimalBytes 2)⟩ ∧
    (partName 2).data.length = max 32 (2 * (decimalBytes 2).length) ∧
    partName 1 ≠ partName 2 :=
  ⟨by decide,
   (C9_amended_part_name 1 2 (by decide)).1,
   (C9_amended_part_name 1 2 (by decide)).2.1,
   (C9_amended_part_name 1 2 (by decide)).2.2⟩

end ClaimC9

/-- One parent-to-child edge of the graph relation. -/
def edge (g : Graph) (a b : Nat) : Prop :=
  ∃ e ∈ g, e.1 = a ∧ b ∈ e.2

/-- Reachability from the root (id 0) along `graph` edges. -/
def Reach (g : Graph) (b : Nat) : Prop :=
  Relation.ReflTransGen (edge g) 0 b

/-- The graph relation has no (non-empty) cycle. -/
def Acyclic (g : Graph) : Prop :=
  ∀ a, ¬ Relation.TransGen (edge g) a a

section ClaimC2

lemma cleanPass_sublist (g : Graph) : List.Sublist (cleanPass g) g := by
  simp only [cleanPass]
  exact List.filter_sublist g

lemma cleanLoop_sublist (fuel : Nat) (g : Graph) :
    List.Sublist (cleanLoop fuel g) g := by
  induction fuel generalizing g with
  | zero => exact List.Sublist.refl g
  | succ fuel ih =>
    rw [cleanLoop]
    by_cases hlen : (cleanPass g).length = g.length
    · rw [if_pos hlen]
      exact cleanPass_sublist g
    · rw [if_neg hlen]
      exact (ih (cleanPass g)).trans (cleanPass_sublist g)

lemma cleanLoop_fixpoint (fuel : Nat) (g : Graph) (h : g.length ≤ fuel) :
    cleanPass (cleanLoop fuel g) = cleanLoop fuel g := by
  induction fuel generalizing g with
  | zero =>
    have hnil : g = [] := List.eq_nil_of_length_eq_zero (by omega)
    subst hnil
    rfl
  | succ fuel ih =>
    rw [cleanLoop]
    by_cases hlen : (cleanPass g).length = g.length
    · rw [if_pos hlen]
      have heq : cleanPass g = g :=
        ((cleanPass_sublist g).length_eq).mp hlen
      rw [heq]
      exact heq
    · rw [if_neg hlen]
      refine ih (cleanPass g) ?_
      have hle := (cleanPass_sublist g).length_le
      omega

lemma cleanGraph_fixpoint (g : Graph) :
    cleanPass (cleanGraph g) = cleanGraph g :=
  cleanLoop_fixpoint (g.length + 1) g (by omega)

lemma cleanGraph_sublist (g : Graph) : List.Sublist (cleanGraph g) g :=
  cleanLoop_sublist (g.length + 1) g

lemma fixpoint_mem (S : Graph) (hfix : cleanPass S = S)
    (e : Nat × List Nat) (he : e ∈ S) : e.1 = 0 ∨ e.1 ∈ hmVals S := by
  have hmem : e ∈ cleanPass S := by rw [hfix]; exact he
  simp only [cleanPass] at hmem
  have hp := (List.mem_filter.mp hmem).2
  simpa using hp

lemma edge_mono (S g : Graph) (hsub : List.Sublist S g) (a b : Nat)
    (h : edge S a b) : edge g a b := by
  rcases h with ⟨e, he, h1, h2⟩
  exact ⟨e, hsub.subset he, h1, h2⟩

lemma acyclic_mono (S g : Graph) (hsub : List.Sublist S g)
    (hacyc : Acyclic g) : Acyclic S := by
  intro a h
  exact hacyc a (Relation.TransGen.mono (edge_mono S g hsub) h)

lemma reach_keys (S : Graph) (hfix : cleanPass S = S) (hacyc : Acyclic S) :
    ∀ e ∈ S, Reach S e.1 := by
  have hfin : Finite {k // k ∈ S.map Prod.fst} :=
    (S.map Prod.fst).finite_toSet.to_subtype
  let r : {k // k ∈ S.map Prod.fst} → {k // k ∈ S.map Prod.fst} → Prop :=
    fun a b => Relation.TransGen (edge S) a.1 b.1
  have htrans : IsTrans _ r := ⟨fun _ _ _ hab hbc => hab.trans hbc⟩
  have hirrefl : IsIrrefl _ r := ⟨fun a h => hacyc a.1 h⟩
  have hwf : WellFounded r := Finite.wellFounded_of_trans_of_irrefl r
  have hmain : ∀ k : {k // k ∈ S.map Prod.fst}, Reach S k.1 := by
    intro k
    refine WellFounded.induction (C := fun k => Reach S k.1) hwf k ?_
    intro x ihx
    rcases List.mem_map.mp x.2 with ⟨e, he, hex⟩
    by_cases hx0 : x.1 = 0
    · rw [hx0]
      exact Relation.ReflTransGen.refl
    · rcases fixpoint_mem S hfix e he with h0 | hval
      · rw [← hex] at hx0
        exact absurd h0 hx0
      · rw [hex] at hval
        rcases List.exists_of_mem_flatMap hval with ⟨e', he', hmem⟩
        have hedge : edge S e'.1 x.1 := ⟨e', he', rfl, hmem⟩
        have hp : e'.1 ∈ S.map Prod.fst := List.mem_map_of_mem Prod.fst he'
        have hreach := ihx ⟨e'.1, hp⟩ (Relation.TransGen.single hedge)
        exact hreach.tail hedge
  intro e he
  exact hmain ⟨e.1, List.mem_map_of_mem Prod.fst he⟩

lemma clean_spec (fs : Filesystem) (hacyc : Acyclic fs.graph) :
    (∀ n ∈ fs.clean.2.nodes, Reach fs.clean.2.graph n.id) ∧
    (∀ d ∈ fs.clean.2.data, ∃ n ∈ fs.clean.2.nodes, d.id ∈ n.data) ∧
    (∀ d, d ∈ fs.clean.1 ↔
      d ∈ fs.data ∧ ¬∃ n ∈ fs.clean.2.nodes, d.id ∈ n.data) := by
  have hfix := cleanGraph_fixpoint fs.graph
  have hsub := cleanGraph_sublist fs.graph
  have hacyc' : Acyclic (cleanGraph fs.graph) :=
    acyclic_mono _ _ hsub hacyc
  have hkeys := reach_keys (cleanGraph fs.graph) hfix hacyc'
  have hnodes : fs.clean.2.nodes =
      fs.nodes.filter (fun n => (hmVals (cleanGraph fs.graph)).contains n.id) := rfl
  have hgraph : fs.clean.2.graph = cleanGraph fs.graph := rfl
  have hdata : fs.clean.2.data =
      fs.data.filter (fun d =>
        ((fs.nodes.filter (fun n => (hmVals (cleanGraph fs.graph)).contains n.id)).flatMap
          (fun n => n.data)).contains d.id) := rfl
  have hremoved : fs.clean.1 =
      fs.data.filter (fun d =>
        !((fs.nodes.filter (fun n => (hmVals (cleanGraph fs.graph)).contains n.id)).flatMap
          (fun n => n.data)).contains d.id) := rfl
  refine ⟨?_, ?_, ?_⟩
  · intro n hn
    rw [hnodes] at hn
    have hcont := (List.mem_filter.mp hn).2
    have hval : n.id ∈ hmVals (cleanGraph fs.graph) := by simpa using hcont
    rcases List.exists_of_mem_flatMap hval with ⟨e', he', hmem⟩
    have hedge : edge (cleanGraph fs.graph) e'.1 n.id := ⟨e', he', rfl, hmem⟩
    rw [hgraph]
    exact (hkeys e' he').tail hedge
  · intro d hd
    rw [hdata] at hd
    have hcont := (List.mem_filter.mp hd).2
    have hval : d.id ∈
        (fs.nodes.filter (fun n =>
          (hmVals (cleanGraph fs.graph)).contains n.id)).flatMap (fun n => n.data) := by
      simpa using hcont
    rcases List.exists_of_mem_flatMap hval with ⟨n, hn, hmem⟩
    exact ⟨n, by rw [hnodes]; exact hn, hmem⟩
  · intro d
    rw [hremoved, hnodes]
    constructor
    · intro hd
      have hin := List.mem_filter.mp hd
      refine ⟨hin.1, ?_⟩
      rintro ⟨n, hn, hmem⟩
      have hcont := hin.2
      have hmm : ((fs.nodes.filter (fun n =>
          (hmVals (cleanGraph fs.graph)).contains n.id)).flatMap
            (fun n => n.data)).contains d.id = true := by
        simpa using List.mem_flatMap.mpr ⟨n, hn, hmem⟩
      rw [hmm] at hcont
      simp at hcont
    · rintro ⟨hd, hnone⟩
      refine List.mem_filter.mpr ⟨hd, ?_⟩
      cases hcb : ((fs.nodes.filter (fun n =>
          (hmVals (cleanGraph fs.graph)).contains n.id)).flatMap
            (fun n => n.data)).contains d.id with
      | false => rfl
      | true =>
        exfalso
        have hmem : d.id ∈ (fs.nodes.filter (fun n =>
            (hmVals (cleanGraph fs.graph)).contains n.id)).flatMap
              (fun n => n.data) := by
          simpa using hcb
        rcases List.mem_flatMap.mp hmem with ⟨n, hn, hx⟩
        exact hnone ⟨n, hn, hx⟩

lemma edge_rm_subset (g : Graph) (k : Nat) (p : Nat → Bool) (a b : Nat)
    (h : edge (hmInsert g k (((hmGet g k).getD []).filter p)) a b) :
    edge g a b := by
  rcases h with ⟨e', he', h1, h2⟩
  rw [hmInsert] at he'
  by_cases hany : g.any (fun e => e.1 == k)
  · rw [if_pos hany] at he'
    rcases List.mem_map.mp he' with ⟨e, he, hfe⟩
    by_cases hek : (e.1 == k) = true
    · rw [if_pos hek] at hfe
      subst hfe
      rcases hget : hmGet g k with _ | oc
      · rw [hget] at h2
        simp at h2
      · rw [hget] at h2
        rcases hfind : g.find? (fun e => e.1 == k) with _ | e0
        · rw [hmGet, hfind] at hget
          simp at hget
        · have he0 : e0 ∈ g := List.mem_of_find?_eq_some hfind
          have he0k : e0.1 = k := by
            have := List.find?_some hfind
            simpa using this
          rw [hmGet, hfind] at hget
          simp at hget
          subst hget
          refine ⟨e0, he0, by rw [he0k]; exact h1, ?_⟩
          have := List.mem_filter.mp h2
          exact this.1
    · rw [if_neg hek] at hfe
      subst hfe
      exact ⟨e, he, h1, h2⟩
  · rw [if_neg hany] at he'
    rcases List.mem_append.mp he' with he | he
    · exact ⟨e', he, h1, h2⟩
    · have he'' : e' = (k, ((hmGet g k).getD []).filter p) := List.mem_singleton.mp he
      have hget : hmGet g k = none := by
        rw [hmGet]
        rcases hfind : g.find? (fun e => e.1 == k) with _ | e0
        · rw [hfind]
          rfl
        · exact absurd (List.any_eq_true.mpr
            ⟨e0, List.mem_of_find?_eq_some hfind, List.find?_some hfind⟩) hany
      rw [he'', hget] at h2
      simp at h2

/-- Claim C2: on an acyclic graph, after `clean()` every surviving node is
reachable from the root along the cleaned graph, every surviving chunk is
referenced by a surviving node, and the returned list holds exactly the
chunks that were present before but are referenced by no surviving node;
consequently the same holds for the state left by any successful `rm`. -/
theorem C2_clean_no_orphans (fs : Filesystem) (hacyc : Acyclic fs.graph) :
    (∀ n ∈ fs.clean.2.nodes, Reach fs.clean.2.graph n.id) ∧
    (∀ d ∈ fs.clean.2.data, ∃ n ∈ fs.clean.2.nodes, d.id ∈ n.data) ∧
    (∀ d, d ∈ fs.clean.1 ↔
      d ∈ fs.data ∧ ¬∃ n ∈ fs.clean.2.nodes, d.id ∈ n.data) ∧
    (∀ id l fsr, fs.rm id = (.ok l, fsr) →
      (∀ n ∈ fsr.nodes, Reach fsr.graph n.id) ∧
      (∀ d ∈ fsr.data, ∃ n ∈ fsr.nodes, d.id ∈ n.data)) := by
  obtain ⟨hc1, hc2, hc3⟩ := clean_spec fs hacyc
  refine ⟨hc1, hc2, hc3, ?_⟩
  intro id l fsr hrm
  by_cases hid : id = 0
  · subst hid
    rw [Filesystem.rm, if_pos rfl] at hrm
    injection hrm with h1 h2
    subst h2
    exact ⟨fun n hn => absurd hn (by simp), fun d hd => absurd hd (by simp)⟩
  · rw [Filesystem.rm, if_neg hid] at hrm
    rcases hfind : (fs.graph.find? (fun e => e.2.contains id)).map (fun e => e.1) with _ | parent
    · rw [hfind] at hrm
      cases hrm
    · rw [hfind] at hrm
      injection hrm with h1 h2
      have hacyc1 : Acyclic (hmInsert fs.graph parent
          (((hmGet fs.graph parent).getD []).filter (fun cid => cid != id))) := by
        intro a h
        refine hacyc a (Relation.TransGen.mono ?_ h)
        intro x y hxy
        exact edge_rm_subset fs.graph parent (fun cid => cid != id) x y hxy
      obtain ⟨hd1, hd2, _⟩ := clean_spec
        ⟨fs.data, fs.nodes, hmInsert fs.graph parent
          (((hmGet fs.graph parent).getD []).filter (fun cid => cid != id))⟩ hacyc1
      rw [← h2]
      exact ⟨hd1, hd2⟩

/-- A graph whose edges always increase the id is acyclic. -/
lemma acyclic_of_lt (g : Graph) (hlt : ∀ a b, edge g a b → a < b) :
    Acyclic g := by
  have hkey : ∀ a b, Relation.TransGen (edge g) a b → a < b := by
    intro a b h
    induction h with
    | single h => exact hlt _ _ h
    | tail _ hbc ih => exact lt_trans ih (hlt _ _ hbc)
  intro a h
  exact lt_irrefl a (hkey a a h)

/-- Concrete state for the C2 witness: chunks 1 and 2, nodes 1 (a file
holding chunk 1) and 2 (orphaned), graph `0 -> [1]`. -/
def fsC2 : Filesystem :=
  ⟨[⟨1, [], [], []⟩, ⟨2, [], [], []⟩],
   [⟨1, "f", 0, true, [], [1], []⟩, ⟨2, "g", 0, true, [], [2], []⟩],
   [(0, [1]), (2, [])]⟩

/-- Witness for claim C2 at `fsC2`: the graph is acyclic, and the cleaned
state keeps exactly node 1 and chunk 1 while returning chunk 2. -/
theorem C2_witness :
    Acyclic fsC2.graph ∧
    (∀ n ∈ fsC2.clean.2.nodes, Reach fsC2.clean.2.graph n.id) ∧
    (∀ d ∈ fsC2.clean.2.data, ∃ n ∈ fsC2.clean.2.nodes, d.id ∈ n.data) ∧
    (∀ d, d ∈ fsC2.clean.1 ↔
      d ∈ fsC2.data ∧ ¬∃ n ∈ fsC2.clean.2.nodes, d.id ∈ n.data) ∧
    fsC2.clean.1 = [⟨2, [], [], []⟩] ∧
    fsC2.clean.2.nodes = [⟨1, "f", 0, true, [], [1], []⟩] := by
  have hacyc : Acyclic fsC2.graph := by
    refine acyclic_of_lt _ ?_
    intro a b h
    rcases h with ⟨e, he, h1, h2⟩
    have he' : e = (0, [1]) ∨ e = (2, ([] : List Nat)) := by simpa [fsC2] using he
    rcases he' with rfl | rfl
    · have hb : b = 1 := by simpa using h2
      omega
    · simp at h2
  obtain ⟨h1, h2, h3, _⟩ := C2_clean_no_orphans fsC2 hacyc
  exact ⟨hacyc, h1, h2, h3, by decide, by decide⟩

end ClaimC2


/-- The 64 SHA-256 round constants (fractional parts of the cube roots of
the first 64 primes). -/
def shaK : List Nat :=
  [
   1116352408, 1899447441, 3049323471, 3921009573, 961987163, 1508970993,
   2453635748, 2870763221, 3624381080, 310598401, 607225278, 1426881987,
   1925078388, 2162078206, 2614888103, 3248222580, 3835390401, 4022224774,
   264347078, 604807628, 770255983, 1249150122, 1555081692, 1996064986,
   2554220882, 2821834349, 2952996808, 3210313671, 3336571891, 3584528711,
   113926993, 338241895, 666307205, 773529912, 1294757372, 1396182291,
   1695183700, 1986661051, 2177026350, 2456956037, 2730485921, 2820302411,
   3259730800, 3345764771, 3516065817, 3600352804, 4094571909, 275423344,
   430227734, 506948616, 659060556, 883997877, 958139571, 1322822218,
   1537002063, 1747873779, 1955562222, 2024104815, 2227730452, 2361852424,
   2428436474, 2756734187, 3204031479, 3329325298]

/-- The SHA-256 initial hash state. -/
def shaH0 : List Nat :=
  [
   1779033703, 3144134277, 1013904242, 2773480762,
   1359893119, 2600822924, 528734635, 1541459225]

/-- Addition modulo 2^32. -/
def add32 (a b : Nat) : Nat := (a + b) % 4294967296

/-- Right rotation of a 32-bit word. -/
def rotr32 (x n : Nat) : Nat :=
  ((x >>> n) ||| (x <<< (32 - n))) % 4294967296

/-- Big-endian bytes of `v`, `w` bytes wide. -/
def beBytes : Nat → Nat → List Nat
  | 0, _ => []
  | w + 1, v => beBytes w (v / 256) ++ [v % 256]

/-- SHA-256 padding: append `0x80`, zeros, and the 64-bit big-endian bit
length, reaching a multiple of 64 bytes. -/
def padMsg (ms : List Nat) : List Nat :=
  ms ++ [128] ++ List.replicate ((64 - ((ms.length + 9) % 64)) % 64) 0 ++
    beBytes 8 (ms.length * 8)

/-- Split into 64-byte blocks (fuel is the list length, which strictly
drops each step). -/
def chunks64Aux : Nat → List Nat → List (List Nat)
  | 0, _ => []
  | _ + 1, [] => []
  | fuel + 1, l => l.take 64 :: chunks64Aux fuel (l.drop 64)

/-- Split a padded message into its 64-byte blocks. -/
def chunks64 (l : List Nat) : List (List Nat) := chunks64Aux l.length l

/-- Big-endian 32-bit words of a block. -/
def toWords : List Nat → List Nat
  | b0 :: b1 :: b2 :: b3 :: rest =>
    (((b0 * 256 + b1) * 256 + b2) * 256 + b3) :: toWords rest
  | _ => []

/-- The two small sigma functions of the SHA-256 message schedule. -/
def smallSigma0 (x : Nat) : Nat := (rotr32 x 7) ^^^ (rotr32 x 18) ^^^ (x >>> 3)

/-- Second small sigma. -/
def smallSigma1 (x : Nat) : Nat := (rotr32 x 17) ^^^ (rotr32 x 19) ^^^ (x >>> 10)

/-- Extend the 16 block words to the 64-word message schedule. -/
def extendW : Nat → List Nat → List Nat
  | 0, w => w
  | k + 1, w =>
    extendW k (w ++ [add32
      (add32 (smallSigma1 (w.getD (w.length - 2) 0)) (w.getD (w.length - 7) 0))
      (add32 (smallSigma0 (w.getD (w.length - 15) 0)) (w.getD (w.length - 16) 0))])

/-- One SHA-256 compression round on the eight working variables. -/
def shaRound (st : Nat × Nat × Nat × Nat × Nat × Nat × Nat × Nat) (kw : Nat × Nat) :
    Nat × Nat × Nat × Nat × Nat × Nat × Nat × Nat :=
  match st, kw with
  | (a, b, c, d, e, f, g, h), (k, w) =>
    let s1 := (rotr32 e 6) ^^^ (rotr32 e 11) ^^^ (rotr32 e 25)
    let ch := (e &&& f) ^^^ ((4294967295 ^^^ e) &&& g)
    let t1 := add32 (add32 (add32 (add32 h s1) ch) k) w
    let s0 := (rotr32 a 2) ^^^ (rotr32 a 13) ^^^ (rotr32 a 22)
    let mj := (a &&& b) ^^^ (a &&& c) ^^^ (b &&& c)
    let t2 := add32 s0 mj
    (add32 t1 t2, a, b, c, add32 d t1, e, f, g)

/-- Add the final working variables back into the incoming hash words. -/
def outWords (h0 h1 h2 h3 h4 h5 h6 h7 : Nat) :
    Nat × Nat × Nat × Nat × Nat × Nat × Nat × Nat → List Nat
  | (a, b, c, d, e, f, g, h) =>
    [add32 h0 a, add32 h1 b, add32 h2 c, add32 h3 d,
     add32 h4 e, add32 h5 f, add32 h6 g, add32 h7 h]

/-- Compress one 64-byte block into the running hash state. -/
def compressBlock (hst : List Nat) (block : List Nat) : List Nat :=
  let w := extendW 48 (toWords block)
  let h0 := hst.getD 0 0
  let h1 := hst.getD 1 0
  let h2 := hst.getD 2 0
  let h3 := hst.getD 3 0
  let h4 := hst.getD 4 0
  let h5 := hst.getD 5 0
  let h6 := hst.getD 6 0
  let h7 := hst.getD 7 0
  outWords h0 h1 h2 h3 h4 h5 h6 h7
    ((shaK.zip w).foldl shaRound (h0, h1, h2, h3, h4, h5, h6, h7))

/-- SHA-256 of a byte list, as 32 bytes. -/
def sha256 (ms : List Nat) : List Nat :=
  ((chunks64 (padMsg ms)).foldl compressBlock shaH0).flatMap (fun h => beBytes 4 h)

/-- HMAC-SHA-256. -/
def hmacSha256 (key msg : List Nat) : List Nat :=
  let k0 := if 64 < key.length then sha256 key else key
  let kpad := k0 ++ List.replicate (64 - k0.length) 0
  let ipad := kpad.map (fun b => b ^^^ 54)
  let opad := kpad.map (fun b => b ^^^ 92)
  sha256 (opad ++ sha256 (ipad ++ msg))

/-- HKDF-Extract (RFC 5869): `PRK = HMAC-Hash(salt, IKM)`. -/
def hkdfExtract (salt ikm : List Nat) : List Nat := hmacSha256 salt ikm

/-- The blocks `T(1) .. T(n)` of HKDF-Expand: the pair holds `T(i)` and the
concatenation `T(1) ++ .. ++ T(i)`. -/
def hkdfAux (prk info : List Nat) : Nat → List Nat × List Nat
  | 0 => ([], [])
  | i + 1 =>
    let p := hkdfAux prk info i
    let t := hmacSha256 prk (p.1 ++ info ++ [i + 1])
    (t, p.2 ++ t)

/-- HKDF-SHA-256 (RFC 5869), one shot: extract with `salt` and `ikm`, then
expand with `info` to `okmLen` bytes. -/
def hkdf (salt ikm info : List Nat) (okmLen : Nat) : List Nat :=
  ((hkdfAux (hkdfExtract salt ikm) info ((okmLen + 31) / 32)).2).take okmLen

/-- `derive_key` from `src/void/src/crypto.rs` lines 80-86: the code builds
`Hkdf::<Sha256>::new(Some(salt), iv)` — extract with salt `salt` and INPUT
KEYING MATERIAL `iv` — and then calls `expand(pswd.as_bytes(), ..)`, i.e.
uses the password bytes as the INFO string, producing 32 bytes. -/
def derive_key (pswd salt iv : List Nat) : List Nat :=
  hkdf salt iv pswd 32

/-- Modelled from the claim's words: HKDF-SHA-256 with salt `salt`, info
`iv`, and IKM the password bytes. -/
def specDeriveKey (pswd salt iv : List Nat) : List Nat :=
  hkdf salt pswd iv 32

/-- The salt/iv bytes of the repository's `test_derive_key` unit test
(`hex 8a5eaba62bf74487ac35ce27050445cd`). -/
def tvSaltIv : List Nat :=
  [138, 94, 171, 166, 43, 247, 68, 135, 172, 53, 206, 39, 5, 4, 69, 205]

/-- The UTF-8 bytes of the test password `"123456"`. -/
def tvPswd : List Nat := [49, 50, 51, 52, 53, 54]

/-- The expected key of the repository's `test_derive_key` unit test
(`hex aa4458163f34dcd687a600beba020c1f3c9351b18b38b8cc981a86be69b4cee4`). -/
def tvKey : List Nat :=
  [
170, 68, 88, 22, 63, 52, 220, 214, 135, 166, 0, 190, 186, 2, 12, 31,
   60, 147, 81, 177, 139, 56, 184, 204, 152, 26, 134, 190, 105, 180, 206, 228]

section ClaimC3

set_option maxRecDepth 16000

set_option maxHeartbeats 2000000

/-- Claim C3 is false as stated: at the repository's own `test_derive_key`
vector (password `"123456"`, salt = iv = `8a5e..45cd`) the embedded
`derive_key` reproduces the unit test's expected output — confirming that
the code runs HKDF-SHA-256 with IKM = iv and info = password bytes — while
HKDF-SHA-256 with the claim's roles (info = iv, IKM = password) produces a
different key. -/
theorem C3_counterexample :
    derive_key tvPswd tvSaltIv tvSaltIv = tvKey ∧
    specDeriveKey tvPswd tvSaltIv tvSaltIv ≠ tvKey ∧
    derive_key tvPswd tvSaltIv tvSaltIv ≠
      specDeriveKey tvPswd tvSaltIv tvSaltIv := by
  have h1 : derive_key tvPswd tvSaltIv tvSaltIv = tvKey := by decide
  have h2 : specDeriveKey tvPswd tvSaltIv tvSaltIv ≠ tvKey := by decide
  exact ⟨h1, h2, fun hc => h2 (hc ▸ h1)⟩

lemma beBytes_length (w : Nat) : ∀ v, (beBytes w v).length = w := by
  induction w with
  | zero => intro v; rfl
  | succ w ih =>
    intro v
    rw [beBytes, List.length_append, ih]
    rfl

lemma outWords_length (h0 h1 h2 h3 h4 h5 h6 h7 : Nat)
    (t : Nat × Nat × Nat × Nat × Nat × Nat × Nat × Nat) :
    (outWords h0 h1 h2 h3 h4 h5 h6 h7 t).length = 8 := by
  rcases t with ⟨a, b, c, d, e, f, g, h⟩
  rfl

lemma compressBlock_length (hst block : List Nat) :
    (compressBlock hst block).length = 8 := by
  simp only [compressBlock]
  rw [outWords_length]

lemma foldl_compress_length (bs : List (List Nat)) (h : List Nat)
    (hh : h.length = 8) : (bs.foldl compressBlock h).length = 8 := by
  induction bs generalizing h with
  | nil => exact hh
  | cons b bs ih =>
    rw [List.foldl_cons]
    exact ih (compressBlock h b) (compressBlock_length h b)

lemma flatMap_beBytes4_length (l : List Nat) :
    (l.flatMap (fun h => beBytes 4 h)).length = 4 * l.length := by
  induction l with
  | nil => rfl
  | cons x xs ih =>
    rw [List.flatMap_cons, List.length_append, ih, beBytes_length, List.length_cons]
    omega

lemma sha256_length (ms : List Nat) : (sha256 ms).length = 32 := by
  rw [sha256, flatMap_beBytes4_length,
    foldl_compress_length _ shaH0 (by rfl)]

lemma hmacSha256_length (key msg : List Nat) :
    (hmacSha256 key msg).length = 32 := sha256_length _

lemma hkdf32_length (salt ikm info : List Nat) :
    (hkdf salt ikm info 32).length = 32 := by
  have hone : hkdf salt ikm info 32 =
      ((hkdfAux (hkdfExtract salt ikm) info 1).2).take 32 := rfl
  have haux : (hkdfAux (hkdfExtract salt ikm) info 1).2 =
      hmacSha256 (hkdfExtract salt ikm) (info ++ [1]) := by
    simp [hkdfAux]
  rw [hone, haux, List.length_take, hmacSha256_length]
  simp

/-- Claim C3, amended: `derive_key(pswd, salt, iv)` is HKDF-SHA-256 with
salt = `salt`, INPUT KEYING MATERIAL = `iv`, and INFO = the UTF-8 bytes of
the password (the claim had the last two roles swapped); it always returns
exactly 32 bytes, and being a pure function of its inputs it is
deterministic. -/
theorem C3_amended_derive_key (pswd salt iv : List Nat)
    (hs : salt.length = 16) (hi : iv.length = 16) :
    derive_key pswd salt iv = hkdf salt iv pswd 32 ∧
    (derive_key pswd salt iv).length = 32 :=
  ⟨rfl, hkdf32_length salt iv pswd⟩

/-- Witness for the amended claim C3 at the repository's unit-test
vector. -/
theorem C3_witness :
    tvSaltIv.length = 16 ∧
    derive_key tvPswd tvSaltIv tvSaltIv = hkdf tvSaltIv tvSaltIv tvPswd 32 ∧
    (derive_key tvPswd tvSaltIv tvSaltIv).length = 32 :=
  ⟨by decide,
   (C3_amended_derive_key tvPswd tvSaltIv tvSaltIv (by decide) (by decide)).1,
   (C3_amended_derive_key tvPswd tvSaltIv tvSaltIv (by decide) (by decide)).2⟩

end ClaimC3

end Void